import Mathlib

/-!
Verification development for the AMR task-scheduling simulator.

The definitions below are a shallow embedding of the repository's core:
`src/lib/models.ts` (Task, AMR, storage slots), `src/lib/fifo-scheduler.ts`
(FIFO grouping and the objective evaluator) and `src/lib/task-generator.ts`
(the genetic scheduler).  JavaScript numbers used for ids and counters are
modelled as naturals, grid coordinates as integers, processing times and
fitness values as rationals (the scheduler logic only adds and compares
them), and the Euclidean-distance evaluator over the reals.  Randomized
quantities (shuffles, crossover points, mutation indices, tournament picks)
are passed in as explicit arguments so that theorems quantify over every
possible draw.
-/

namespace AMRSpec

/-- Task kinds from `models.ts` (`enum TaskType`). -/
inductive TaskType where
  | DELIVERY
  | PICKUP
  | PICKUP_DELIVERY
deriving DecidableEq

/-- Grid position from `models.ts` (`interface Position`). -/
structure Position where
  x : Int
  y : Int
deriving DecidableEq

/-- Task from `models.ts` (`class Task`). -/
structure Task where
  id : Nat
  type : TaskType
  position : Position
  processingTime : Rat
deriving DecidableEq

/-- The `Task` constructor from `models.ts`: the processing-time argument is
optional, and the assignment `this.processingTime = params.processingTime || 5`
replaces both an omitted argument and the falsy value `0` by the default `5`. -/
def mkTask (id : Nat) (ty : TaskType) (pos : Position) (pt : Option Rat) : Task :=
  { id := id
    type := ty
    position := pos
    processingTime :=
      match pt with
      | none => 5
      | some p => if p = 0 then 5 else p }

/-- Storage slot from `models.ts` (`interface StorageSlot`): the source writes
`{ isOccupied: true, taskId, taskType }` when occupying and `{ isOccupied: false }`
when freeing. -/
structure StorageSlot where
  isOccupied : Bool
  taskId : Option Nat
  taskType : Option TaskType
deriving DecidableEq

/-- A freed slot, `{ isOccupied: false }`. -/
def emptySlot : StorageSlot := ⟨false, none, none⟩

/-- AMR state from `models.ts` (`class AMR`): position plus storage slots. -/
structure AMR where
  position : Position
  storageSlots : List StorageSlot
deriving DecidableEq

/-- Number of occupied slots (`filter((slot) => slot.isOccupied).length`). -/
def occupiedCount (slots : List StorageSlot) : Nat :=
  (slots.filter (fun s => s.isOccupied)).length

/-- The DELIVERY branch of `AMR.executeTask`: occupy the first empty slot with
the task's id and kind, leaving everything else unchanged. -/
def occupyFirst (id : Nat) (ty : TaskType) : List StorageSlot → List StorageSlot
  | [] => []
  | s :: rest =>
    if s.isOccupied then s :: occupyFirst id ty rest
    else ⟨true, some id, some ty⟩ :: rest

/-- The pickup part of `AMR.executeTask`: free the first occupied slot and
report whether one was actually freed (`pickupDone` in the source). -/
def freeFirst : List StorageSlot → List StorageSlot × Bool
  | [] => ([], false)
  | s :: rest =>
    if s.isOccupied then (emptySlot :: rest, true)
    else
      let r := freeFirst rest
      (s :: r.1, r.2)

/-- `AMR.executeTask` from `models.ts`: move to the task position, then update
the slots by task kind.  DELIVERY occupies the first empty slot; PICKUP frees
the first occupied slot; PICKUP_DELIVERY frees the first occupied slot and,
only if one was actually freed, occupies the first empty slot.  The source
raises no exception in any case. -/
def executeTask (amr : AMR) (t : Task) : AMR :=
  let slots :=
    match t.type with
    | TaskType.DELIVERY => occupyFirst t.id t.type amr.storageSlots
    | TaskType.PICKUP => (freeFirst amr.storageSlots).1
    | TaskType.PICKUP_DELIVERY =>
      let r := freeFirst amr.storageSlots
      if r.2 then occupyFirst t.id t.type r.1 else r.1
  { position := t.position, storageSlots := slots }

/-- No slot eligible for the task's kind: for DELIVERY an eligible slot is an
empty one, for PICKUP and PICKUP_DELIVERY an occupied one. -/
def noEligibleSlot (slots : List StorageSlot) (ty : TaskType) : Prop :=
  match ty with
  | TaskType.DELIVERY => ∀ s ∈ slots, s.isOccupied = true
  | TaskType.PICKUP => ∀ s ∈ slots, s.isOccupied = false
  | TaskType.PICKUP_DELIVERY => ∀ s ∈ slots, s.isOccupied = false

/-! ## FIFO scheduler (`src/lib/fifo-scheduler.ts`) -/

/-- The slot-usage update of `FIFOScheduler.schedule` (and of the GA's
`createRandomChromosome`): DELIVERY adds one, PICKUP takes
`Math.max(0, slotsUsed - 1)` (which is exactly truncated subtraction on
naturals), PICKUP_DELIVERY leaves the count unchanged. -/
def updateSlots (s : Nat) (t : Task) : Nat :=
  match t.type with
  | TaskType.DELIVERY => s + 1
  | TaskType.PICKUP => s - 1
  | TaskType.PICKUP_DELIVERY => s

/-- One scan of the remaining tasks in `FIFOScheduler.schedule`, building the
current group: a PICKUP_DELIVERY with `slotsUsed >= 3` is skipped (it stays in
the remaining list, scanning continues), with `slotsUsed >= 4` scanning stops
(the group closes, everything remaining is kept), otherwise the task is taken
into the group and `slotsUsed` is updated.  Returns (group, remaining). -/
def buildGroup : List Task → Nat → List Task × List Task
  | [], _ => ([], [])
  | t :: rest, s =>
    if t.type = TaskType.PICKUP_DELIVERY ∧ 3 ≤ s then
      let r := buildGroup rest s
      (r.1, t :: r.2)
    else if 4 ≤ s then ([], t :: rest)
    else
      let r := buildGroup rest (updateSlots s t)
      (t :: r.1, r.2)

/-- The outer loop of `FIFOScheduler.schedule`: repeatedly build a group from
the remaining tasks (with `slotsUsed` restarting at 0) until the remainder is
exhausted, stopping if a group comes back empty.  The fuel argument (the
number of remaining tasks at entry) is a termination device only; each round
consumes at least one task. -/
def fifoGroupsAux : Nat → List Task → List (List Task)
  | 0, _ => []
  | fuel + 1, l =>
    match l with
    | [] => []
    | t :: rest =>
      let r := buildGroup (t :: rest) 0
      if r.1 = [] then [] else r.1 :: fifoGroupsAux fuel r.2

/-- The groups produced by `FIFOScheduler.schedule`. -/
def fifoGroups (l : List Task) : List (List Task) :=
  fifoGroupsAux l.length l

/-- `FIFOScheduler.schedule`: the concatenation of all groups
(`result.push(...group)` in the source). -/
def fifoSchedule (l : List Task) : List Task :=
  (fifoGroups l).flatten

/-- Concrete scenario from the spec: five PICKUP_DELIVERY tasks in arrival
order. -/
def pdFive : List Task :=
  [⟨1, TaskType.PICKUP_DELIVERY, ⟨3, 3⟩, 5⟩,
   ⟨2, TaskType.PICKUP_DELIVERY, ⟨5, 3⟩, 5⟩,
   ⟨3, TaskType.PICKUP_DELIVERY, ⟨7, 3⟩, 5⟩,
   ⟨4, TaskType.PICKUP_DELIVERY, ⟨9, 3⟩, 5⟩,
   ⟨5, TaskType.PICKUP_DELIVERY, ⟨11, 3⟩, 5⟩]

/-- The claim's per-group feasibility check: walking a group with the slot
update rule from 0, no PICKUP_DELIVERY is admitted while `slotsUsed >= 3`, and
the running occupancy never exceeds 4. -/
def groupOkB : Nat → List Task → Bool
  | _, [] => true
  | s, t :: ts =>
    (if t.type = TaskType.PICKUP_DELIVERY then decide (s < 3) else true) &&
      decide (updateSlots s t ≤ 4) && groupOkB (updateSlots s t) ts

/-! ## Objective evaluator (`FIFOScheduler.calculateMetrics` in
`src/lib/fifo-scheduler.ts`; the GA's `GeneticAlgorithm.calculateFitness` in
`src/lib/task-generator.ts` is the identical code) -/

/-- Euclidean distance `Math.sqrt((x1-x2)^2 + (y1-y2)^2)` between two grid
positions, over the reals. -/
noncomputable def euclid (p q : Position) : ℝ :=
  Real.sqrt (((q.x - p.x : ℤ) : ℝ) ^ 2 + ((q.y - p.y : ℤ) : ℝ) ^ 2)

/-- The evaluator loop: starting from the current virtual position with the
accumulated time and idle distance, each task adds the travel distance to the
time, adds it to the idle distance exactly when the task is a DELIVERY, then
adds the processing time and moves the virtual position to the task. -/
noncomputable def metricsAux :
    Position → ℝ → ℝ → List Task → ℝ × ℝ
  | _, time, idle, [] => (time, idle)
  | pos, time, idle, t :: ts =>
    let d := euclid pos t.position
    metricsAux t.position (time + d + (t.processingTime : ℝ))
      (idle + if t.type = TaskType.DELIVERY then d else 0) ts

/-- `calculateMetrics` / `calculateFitness`: replay the sequence from the home
position (2,2) with time 0 and idle distance 0; the result is
(makespan, idleDistance). -/
noncomputable def calculateMetrics (solution : List Task) : ℝ × ℝ :=
  metricsAux ⟨2, 2⟩ 0 0 solution

/-! ## Genetic scheduler (`src/lib/task-generator.ts`) -/

/-- The grouping walk of `GeneticAlgorithm.createRandomChromosome`: scan the
shuffled tasks keeping a current group and `slotsUsed`; when the next task is a
PICKUP_DELIVERY with `slotsUsed >= 3`, or `slotsUsed >= 4`, close the current
group and reset `slotsUsed` to 0; the task is then always appended to the
(possibly fresh) current group and `slotsUsed` updated; the last group is kept
if nonempty. -/
def gaGroupsAux : List Task → List Task → Nat → List (List Task)
  | [], current, _ => if current = [] then [] else [current]
  | t :: rest, current, s =>
    if (t.type = TaskType.PICKUP_DELIVERY ∧ 3 ≤ s) ∨ 4 ≤ s then
      current :: gaGroupsAux rest [t] (updateSlots 0 t)
    else
      gaGroupsAux rest (current ++ [t]) (updateSlots s t)

/-- `GeneticAlgorithm.createRandomChromosome` applied to a given shuffle
outcome: build constraint-respecting groups from the shuffled tasks, then
flatten them back into a single chromosome. -/
def createRandomChromosome (shuffled : List Task) : List Task :=
  (gaGroupsAux shuffled [] 0).flatten

/-- The cyclic scan of `fillRemainingPositions`
(`while (usedTasks.has(parent[j].id)) j = (j + 1) % length`): starting at
index `j`, find the first index whose task id is not yet used.  The fuel
argument (the chromosome length at every call site) is a termination device;
the while loop terminates exactly when some id is unused, which the lemmas
below establish. -/
def findUnused (parent : List Task) (used : Finset Nat) : Nat → Nat → Option Nat
  | 0, _ => none
  | fuel + 1, j =>
    match parent[j]? with
    | none => none
    | some t =>
      if t.id ∈ used then findUnused parent used fuel ((j + 1) % parent.length)
      else some j

/-- Index positions of the crossover segment `[point1, point2]` that exist in
a chromosome of the given length (the source's loop `for i in [p1..p2]` only
finds non-null entries at indices below the length). -/
def segIdxs (len p1 p2 : Nat) : List Nat :=
  (List.range len).filter (fun i => decide (p1 ≤ i ∧ i ≤ p2))

/-- The initial `usedTasks` set of `fillRemainingPositions`: the ids already
copied into the offspring, i.e. the ids of the other parent's tasks at the
segment positions. -/
def segIds (other : List Task) (p1 p2 : Nat) : Finset Nat :=
  ((segIdxs other.length p1 p2).filterMap
    (fun i => (other[i]?).map Task.id)).toFinset

/-- The position-by-position construction of one PMX offspring
(`crossover` + `fillRemainingPositions`): positions inside `[p1, p2]` keep the
other parent's task; positions outside are filled by the cyclic scan over
`parent`, inserting each placed id into the used set.  `none` models an
out-of-bounds access or a non-terminating scan, which the theorems below show
cannot happen.  This model coincides with the source exactly when
`p1 <= p2 < parent.length`, so that every write of the source's segment-copy
loop lands in range — the only drawable points when the parents are nonempty;
the out-of-range write the source performs on empty parents (at the draw
`Math.random() = 0`) is modelled separately at the raw array level by
`segmentCopyRaw`. -/
def pmxGo (parent other : List Task) (p1 p2 : Nat) :
    List Nat → Finset Nat → Option (List Task)
  | [], _ => some []
  | i :: rest, used =>
    if p1 ≤ i ∧ i ≤ p2 then
      match other[i]? with
      | none => none
      | some t =>
        match pmxGo parent other p1 p2 rest used with
        | none => none
        | some l => some (t :: l)
    else
      match findUnused parent used parent.length i with
      | none => none
      | some j =>
        match parent[j]? with
        | none => none
        | some t =>
          match pmxGo parent other p1 p2 rest (insert t.id used) with
          | none => none
          | some l => some (t :: l)

/-- One PMX offspring: the segment `[p1, p2]` is copied from `other`, the rest
is filled from `parent` in cyclic order skipping already-used ids. -/
def pmx (parent other : List Task) (p1 p2 : Nat) : Option (List Task) :=
  pmxGo parent other p1 p2 (List.range parent.length) (segIds other p1 p2)

/-- `GeneticAlgorithm.crossover`: offspring 1 takes its segment from parent 2
and is filled from parent 1; offspring 2 symmetrically. -/
def crossover (c1 c2 : List Task) (p1 p2 : Nat) :
    Option (List Task) × Option (List Task) :=
  (pmx c1 c2 p1 p2, pmx c2 c1 p1 p2)

/-- Swap mutation for in-range indices (for a nonempty chromosome the source
always draws `Math.floor(Math.random() * length) < length`): exchange the
entries at the two indices. -/
def swapMutation (ch : List Task) (i j : Nat) : List Task :=
  match ch[i]?, ch[j]? with
  | some ti, some tj => (ch.set i tj).set j ti
  | _, _ => ch

/-- Inversion mutation: `slice(point1, point2 + 1)` is reversed and written
back over positions `point1..point2`.  This value-level form coincides with
the source's write-back loop exactly when `p1 <= p2 < ch.length`, so that
every write lands in range — the only drawable points when the chromosome is
nonempty; the out-of-range write the source performs on the empty chromosome
(at the draw `Math.random() = 0`) is modelled at the raw array level by
`inversionMutationRaw`. -/
def inversionMutation (ch : List Task) (p1 p2 : Nat) : List Task :=
  ch.take p1 ++ ((ch.drop p1).take (p2 + 1 - p1)).reverse ++ ch.drop (p2 + 1)

/-- A JavaScript array write `c[k] = v` at the raw level: in range it updates
the entry, out of range it extends the array (holes modelled as `none`). -/
def jsWrite (ch : List (Option Task)) (k : Nat) (v : Option Task) :
    List (Option Task) :=
  if k < ch.length then ch.set k v
  else ch ++ List.replicate (k - ch.length) none ++ [v]

/-- The swap mutation exactly as the source executes it on a raw JavaScript
array (entries may be holes/undefined): the destructuring assignment
`[c[i], c[j]] = [c[j], c[i]]` reads both entries (undefined when out of
range), then writes index `i`, then index `j`. -/
def swapMutationRaw (ch : List (Option Task)) (i j : Nat) : List (Option Task) :=
  let vi := (ch[i]?).getD none
  let vj := (ch[j]?).getD none
  jsWrite (jsWrite ch i vj) j vi

/-- The `Copy the mapping section` loop of `crossover` at the raw JavaScript
level: starting from `new Array(length).fill(null)`, execute
`offspring[i] = other[i]` for `i` from `p1` to `p2` (reads out of range give
undefined; writes out of range grow the array).  For empty parents
(`length = 0`) the subsequent `fillRemainingPositions` loop iterates
`i < length` zero times, so the offspring `crossover` returns is exactly this
segment-copy result. -/
def segmentCopyRaw (other : List (Option Task)) (len p1 p2 : Nat) :
    List (Option Task) :=
  (List.range (p2 + 1 - p1)).foldl
    (fun acc k => jsWrite acc (p1 + k) ((other[p1 + k]?).getD none))
    (List.replicate len none)

/-- The inversion mutation at the raw JavaScript level:
`segment = chromosome.slice(p1, p2 + 1).reverse()`, then
`chromosome[i] = segment[i - p1]` for `i` from `p1` to `p2` (reads of
`segment` out of range give undefined; writes out of range grow the
array). -/
def inversionMutationRaw (ch : List (Option Task)) (p1 p2 : Nat) :
    List (Option Task) :=
  let segment := ((ch.drop p1).take (p2 + 1 - p1)).reverse
  (List.range (p2 + 1 - p1)).foldl
    (fun acc k => jsWrite acc (p1 + k) ((segment[k]?).getD none)) ch

/-! ## GA population and run loop (`src/lib/task-generator.ts`).

The evaluator produces real-valued fitnesses; the run loop only copies and
compares them, so for the loop model fitness values are rationals.  Population
construction and evaluation involve `Math.random()`, so the evaluated
populations are supplied as oracles (`pop0` for the initial population, `pops g`
for the population after the g-th reproduction step); theorems quantify over
every oracle, hence over every possible run.  The per-generation statistics
passed to the callback (mean, worst, standard deviation) play no role in any
claim and are elided from the event trace. -/

/-- An individual: chromosome plus derived fitness, makespan, idle distance
(`interface Individual`). -/
structure Individual where
  chromosome : List Task
  fitness : Rat
  makespan : Rat
  idleDistance : Rat
deriving DecidableEq

/-- `GeneticAlgorithm.findBestIndividual`: `reduce` with a `null` seed keeps
the first strictly-smaller individual; on an empty population it returns
`null` (here `none`), which makes the caller's `initialBest.fitness` access
throw. -/
def findBest : List Individual → Option Individual
  | [] => none
  | x :: xs =>
    some (xs.foldl (fun best cur => if cur.fitness < best.fitness then cur else best) x)

/-- The elite count of `createNewGeneration`:
`Math.max(1, Math.floor(populationSize * 0.1))`; for population sizes in the
representable range `Math.floor(n * 0.1)` is exactly `n / 10` on naturals. -/
def eliteCount (populationSize : Nat) : Nat :=
  max 1 (populationSize / 10)

/-- An individual at the reference level used for the reproduction step: the
source's spread copies (`{...sortedPopulation[i]}` in the elite loop,
`{...best}` in `tournamentSelection`, `{...parent}` on the no-crossover path)
duplicate the scalar fields but share the chromosome *array*.  The model
therefore stores a reference `chrom` into a chromosome store instead of a
chromosome value, so that in-place mutation of a shared array is visible
through every record holding the reference. -/
structure IndividualR where
  chrom : Nat
  fitness : Rat
  makespan : Rat
  idleDistance : Rat
deriving DecidableEq

/-- The chromosome store: which task array each reference currently holds. -/
abbrev Store := Nat → List Task

/-- An in-place write to the chromosome array behind a reference. -/
def storeWrite (s : Store) (r : Nat) (v : List Task) : Store :=
  fun q => if q = r then v else s q

/-- The comparator `(a, b) => a.fitness - b.fitness` orders individuals by
ascending fitness. -/
def fitLE : IndividualR → IndividualR → Prop :=
  fun a b => a.fitness ≤ b.fitness

instance : DecidableRel fitLE :=
  fun a b => inferInstanceAs (Decidable (a.fitness ≤ b.fitness))

instance : IsTotal IndividualR fitLE :=
  ⟨fun a b => le_total a.fitness b.fitness⟩

instance : IsTrans IndividualR fitLE :=
  ⟨fun _ _ _ hab hbc => le_trans hab hbc⟩

/-- `[...population].sort((a, b) => a.fitness - b.fitness)`: a stable sort by
ascending fitness (stable sorting output is unique, so insertion sort is
extensionally the JavaScript sort).  Sorting permutes the records; the pushed
elite `{...sortedPopulation[i]}` is a record with equal fields — in
particular the same chromosome reference. -/
def sortByFitness (pop : List IndividualR) : List IndividualR :=
  List.insertionSort fitLE pop

/-- One mutation draw of `GeneticAlgorithm.mutate`. -/
inductive MutOp where
  | swap (i j : Nat)
  | inversion (p1 p2 : Nat)
deriving DecidableEq

/-- The chromosome value produced by a mutation draw (in-range indices). -/
def applyMut (ch : List Task) : MutOp → List Task
  | MutOp.swap i j => swapMutation ch i j
  | MutOp.inversion p1 p2 => inversionMutation ch p1 p2

/-- One offspring of the fill loop in `createNewGeneration`: either the
no-crossover clone path — `{...parent}` of the tournament-selected population
individual at `idx`, sharing its chromosome reference, with `mutate` possibly
rewriting that shared array in place — or a crossover-path offspring, whose
chromosome is a freshly allocated array (a fresh reference supplied by the
oracle), so that mutating it touches nothing shared with the population. -/
inductive FillChoice where
  | clone (idx : Nat) (mo : Option MutOp)
  | fresh (ind : IndividualR)

/-- The `while (newPopulation.length < populationSize)` fill loop: apply each
drawn choice in order, threading the store through the in-place mutations.
(A clone index out of range is not drawable — tournament indices are below
the population length — and yields no offspring.) -/
def fillLoop (pop : List IndividualR) :
    List FillChoice → Store → List IndividualR × Store
  | [], s => ([], s)
  | FillChoice.fresh ind :: cs, s =>
    let r := fillLoop pop cs s
    (ind :: r.1, r.2)
  | FillChoice.clone idx mo :: cs, s =>
    match pop[idx]? with
    | none => fillLoop pop cs s
    | some ind =>
      let s' :=
        match mo with
        | none => s
        | some m => storeWrite s ind.chrom (applyMut (s ind.chrom) m)
      let r := fillLoop pop cs s'
      (ind :: r.1, r.2)

/-- `GeneticAlgorithm.createNewGeneration` at the reference level: push
shallow copies of the first `eliteCount populationSize` individuals of the
fitness-sorted population (equal scalar fields, shared chromosome reference),
then fill the remainder through the randomized
selection/crossover/mutation loop, whose draws arrive as a choice stream.
Returns the new population together with the store after the loop's in-place
mutations. -/
def createNewGeneration (populationSize : Nat) (pop : List IndividualR)
    (s : Store) (choices : List FillChoice) : List IndividualR × Store :=
  let elites := (sortByFitness pop).take (eliteCount populationSize)
  let fill := fillLoop pop (choices.take (populationSize - elites.length)) s
  (elites ++ fill.1, fill.2)

/-- Observable events of `GeneticAlgorithm.run`: one `gen` event per
`onGenerationComplete` invocation (generation index and the reported
tracked-best fitness) and one `complete` event for `onComplete`. -/
inductive Event where
  | gen (generation : Nat) (fitness : Rat)
  | complete
deriving DecidableEq

/-- The mutable loop state of `GeneticAlgorithm.run`: `lastBestFitness`,
`generationsWithoutImprovement`, and the tracked `bestSolution`. -/
structure RunState where
  lastBest : Rat
  noImprove : Nat
  best : Individual
deriving DecidableEq

/-- `processingChunkSize` after the constructor's task-count adjustment. -/
def chunkSize (tasks : List Task) : Nat :=
  if 20 < tasks.length then 3 else if 15 < tasks.length then 4 else 5

/-- `earlyStopGenerations` after the constructor's task-count adjustment. -/
def earlyStopGens (tasks : List Task) : Nat :=
  if 20 < tasks.length then 5 else if 15 < tasks.length then 8 else 10

/-- The per-generation state update of `GeneticAlgorithm.run` (improvement
check against `lastBestFitness`, reset or bump of
`generationsWithoutImprovement`, tracked-best update only on strict
improvement), together with the early-stop test
`generationsWithoutImprovement >= earlyStopGenerations`. -/
def stepState (esg : Nat) (thr : Rat) (st : RunState)
    (bestInGen : Individual) : RunState × Bool :=
  let improvement := st.lastBest - bestInGen.fitness
  let st1 : RunState :=
    if improvement > thr then ⟨bestInGen.fitness, 0, st.best⟩
    else ⟨st.lastBest, st.noImprove + 1, st.best⟩
  let best' := if bestInGen.fitness < st1.best.fitness then bestInGen else st1.best
  (⟨st1.lastBest, st1.noImprove, best'⟩, decide (esg ≤ st1.noImprove))

/-- The inner `for (let g = generation; g < endChunk; g++)` loop of
`GeneticAlgorithm.run`, with the remaining iteration count as structural fuel
(the wrapper passes `endChunk - g`).  Each iteration takes the evaluated
population for generation `g + 1` from the oracle, finds its best individual
(`none` models the `TypeError` thrown on an empty population, ending the run
with the events fired so far), applies the state update, fires the callback
with the tracked best, and breaks when the early-stop test holds.  Returns the
fired events and (unless the run faulted) the final state plus the break
flag. -/
def innerChunkF (esg : Nat) (thr : Rat) (pops : Nat → List Individual) :
    Nat → Nat → RunState → List Event × Option (RunState × Bool)
  | 0, _, st => ([], some (st, false))
  | fuel + 1, g, st =>
    match findBest (pops (g + 1)) with
    | none => ([], none)
    | some bestInGen =>
      let s := stepState esg thr st bestInGen
      let ev := Event.gen (g + 1) s.1.best.fitness
      if s.2 then ([ev], some (s.1, true))
      else
        let r := innerChunkF esg thr pops fuel (g + 1) s.1
        (ev :: r.1, r.2)

/-- One chunk of generations, `g` up to `endChunk` (exclusive). -/
def innerChunk (esg : Nat) (thr : Rat) (pops : Nat → List Individual)
    (g endChunk : Nat) (st : RunState) : List Event × Option (RunState × Bool) :=
  innerChunkF esg thr pops (endChunk - g) g st

/-- The outer `while (generation < maxGenerations)` loop of
`GeneticAlgorithm.run`, with the number of remaining chunk rounds as
structural fuel (the wrapper passes `maxGen - generation`, which suffices
because every round advances `generation` by at least one).  Note that the
source's early-stop `generation = this.maxGenerations` assignment is
immediately overwritten by `generation = endChunk` after the inner loop, so a
break only ends the current chunk; the outer loop faithfully continues from
`endChunk`. -/
def gaLoopF (chunk maxGen esg : Nat) (thr : Rat)
    (pops : Nat → List Individual) :
    Nat → Nat → RunState → List Event × Bool
  | 0, generation, _ =>
    if generation < maxGen then ([], false) else ([Event.complete], true)
  | fuel + 1, generation, st =>
    if generation < maxGen then
      let endChunk := min (generation + chunk) maxGen
      let r := innerChunk esg thr pops generation endChunk st
      match r.2 with
      | none => (r.1, false)
      | some (st', _) =>
        let r2 := gaLoopF chunk maxGen esg thr pops fuel endChunk st'
        (r.1 ++ r2.1, r2.2)
    else ([Event.complete], true)

/-- `GeneticAlgorithm.run`: evaluate the initial population, report
generation 0 with the initial best, run the chunked generation loop, and
signal completion.  The returned flag is `true` when the run terminated
normally (`onComplete` fired) and `false` when it faulted on an empty
population (`findBestIndividual` returning `null` makes the subsequent
`.fitness` access throw before any further callback). -/
def runGA (tasks : List Task) (pop0 : List Individual)
    (pops : Nat → List Individual) (maxGen : Nat) : List Event × Bool :=
  match findBest pop0 with
  | none => ([], false)
  | some ib =>
    let r := gaLoopF (chunkSize tasks) maxGen (earlyStopGens tasks) (1 / 1000)
      pops maxGen 0 ⟨ib.fitness, 0, ib⟩
    (Event.gen 0 ib.fitness :: r.1, r.2)

/-- The reported tracked-best fitness sequence of a trace. -/
def genFits (evs : List Event) : List Rat :=
  evs.filterMap fun e =>
    match e with
    | Event.gen _ f => some f
    | Event.complete => none

/-- Number of `onGenerationComplete` invocations in a trace. -/
def genCount (evs : List Event) : Nat :=
  (evs.filter fun e =>
    match e with
    | Event.gen _ _ => true
    | Event.complete => false).length

/-- Number of `onComplete` invocations in a trace. -/
def completeCount (evs : List Event) : Nat :=
  (evs.filter fun e =>
    match e with
    | Event.gen _ _ => false
    | Event.complete => true).length

/-- The population the GA actually builds and evaluates when the task list is
empty: every `createRandomChromosome` returns the empty chromosome and the
evaluator gives makespan 0 and idle distance 0, hence fitness 0. -/
def emptyTasksPop (n : Nat) : List Individual :=
  List.replicate n ⟨[], 0, 0, 0⟩

/-- A concrete population of 11 individuals with distinct ascending fitness
values 1..11 (chromosome references 0..10; only fitness matters to
elitism). -/
def elevenPop : List IndividualR :=
  [⟨0, 1, 0, 0⟩, ⟨1, 2, 0, 0⟩, ⟨2, 3, 0, 0⟩, ⟨3, 4, 0, 0⟩,
   ⟨4, 5, 0, 0⟩, ⟨5, 6, 0, 0⟩, ⟨6, 7, 0, 0⟩, ⟨7, 8, 0, 0⟩,
   ⟨8, 9, 0, 0⟩, ⟨9, 10, 0, 0⟩, ⟨10, 11, 0, 0⟩]

/-- A concrete draw stream of crossover-path offspring that does not contain
the second-best individual of `elevenPop`. -/
def dummyChoices : List FillChoice :=
  List.replicate 10 (FillChoice.fresh ⟨99, 99, 0, 0⟩)

/-- A two-task chromosome for the aliasing demonstration. -/
def demoTasks : List Task :=
  [⟨1, TaskType.DELIVERY, ⟨0, 0⟩, 5⟩, ⟨2, TaskType.PICKUP, ⟨1, 1⟩, 5⟩]

/-- A two-individual population whose best individual (fitness 1) holds
chromosome reference 0. -/
def aliasPop : List IndividualR :=
  [⟨0, 1, 0, 0⟩, ⟨1, 2, 0, 0⟩]

/-- Entry store for the aliasing demonstration: reference 0 holds the
two-task chromosome. -/
def aliasStore : Store :=
  fun r => if r = 0 then demoTasks else []

/-- One drawable composite of fill-loop randomness: the tournament selects the
best individual (index 0, whose chromosome the pushed elite shares), the
crossover roll fails (clone path, so the offspring shares the same array),
and the swap mutation fires with indices 0 and 1. -/
def aliasChoices : List FillChoice :=
  [FillChoice.clone 0 (some (MutOp.swap 0 1))]

/-! ## Theorems -/

theorem occupyFirst_length (id : Nat) (ty : TaskType) :
    ∀ slots : List StorageSlot, (occupyFirst id ty slots).length = slots.length := by
  intro slots
  induction slots with
  | nil => rfl
  | cons s rest ih =>
    simp only [occupyFirst]
    split <;> simp [ih]

theorem freeFirst_length :
    ∀ slots : List StorageSlot, (freeFirst slots).1.length = slots.length := by
  intro slots
  induction slots with
  | nil => rfl
  | cons s rest ih =>
    simp only [freeFirst]
    split <;> simp [ih]

theorem occupyFirst_all_occupied (id : Nat) (ty : TaskType) :
    ∀ slots : List StorageSlot, (∀ s ∈ slots, s.isOccupied = true) →
      occupyFirst id ty slots = slots := by
  intro slots h
  induction slots with
  | nil => rfl
  | cons s rest ih =>
    have hs : s.isOccupied = true := h s (List.mem_cons_self s rest)
    simp only [occupyFirst, hs, if_pos]
    exact congrArg _ (ih fun x hx => h x (List.mem_cons_of_mem s hx))

theorem freeFirst_all_empty :
    ∀ slots : List StorageSlot, (∀ s ∈ slots, s.isOccupied = false) →
      freeFirst slots = (slots, false) := by
  intro slots h
  induction slots with
  | nil => rfl
  | cons s rest ih =>
    have hs : s.isOccupied = false := h s (List.mem_cons_self s rest)
    simp only [freeFirst, hs]
    rw [ih fun x hx => h x (List.mem_cons_of_mem s hx)]
    simp

theorem freeFirst_spec :
    ∀ slots : List StorageSlot, (∃ s ∈ slots, s.isOccupied = true) →
      (freeFirst slots).2 = true ∧
      occupiedCount (freeFirst slots).1 + 1 = occupiedCount slots ∧
      (∃ s ∈ (freeFirst slots).1, s.isOccupied = false) := by
  intro slots h
  induction slots with
  | nil => simp at h
  | cons s rest ih =>
    by_cases hs : s.isOccupied = true
    · refine ⟨by simp [freeFirst, hs], ?_, ?_⟩
      · simp [freeFirst, hs, occupiedCount, emptySlot]
      · exact ⟨emptySlot, by simp [freeFirst, hs, emptySlot]⟩
    · have hrest : ∃ x ∈ rest, x.isOccupied = true := by
        rcases h with ⟨x, hx, hocc⟩
        rcases List.mem_cons.mp hx with h1 | h2
        · exact absurd (h1 ▸ hocc) hs
        · exact ⟨x, h2, hocc⟩
      rcases ih hrest with ⟨h1, h2, h3⟩
      refine ⟨by simp [freeFirst, hs, h1], ?_, ?_⟩
      · simp only [freeFirst, hs]
        simpa [occupiedCount, hs] using h2
      · rcases h3 with ⟨x, hx, hempty⟩
        exact ⟨x, by simp [freeFirst, hs, hx], hempty⟩

theorem occupyFirst_count (id : Nat) (ty : TaskType) :
    ∀ slots : List StorageSlot, (∃ s ∈ slots, s.isOccupied = false) →
      occupiedCount (occupyFirst id ty slots) = occupiedCount slots + 1 := by
  intro slots h
  induction slots with
  | nil => simp at h
  | cons s rest ih =>
    by_cases hs : s.isOccupied = true
    · have hrest : ∃ x ∈ rest, x.isOccupied = false := by
        rcases h with ⟨x, hx, hocc⟩
        rcases List.mem_cons.mp hx with h1 | h2
        · exact absurd hs (by simp [← h1, hocc])
        · exact ⟨x, h2, hocc⟩
      simp only [occupyFirst, hs, if_pos]
      simpa [occupiedCount, hs] using ih hrest
    · have hs' : s.isOccupied = false := by simpa using hs
      simp [occupyFirst, hs', occupiedCount]

/-- **C8.** `executeTask` is total (the source raises no exception): it always
moves the carrier to the task's position; when the task is PICKUP_DELIVERY and
no slot is occupied beforehand the storage slots are left completely unchanged;
and in general, whenever no eligible slot exists for the task's kind, the slot
state does not change. -/
theorem c8_executeTask_no_failure (amr : AMR) (t : Task) :
    (executeTask amr t).position = t.position ∧
    (t.type = TaskType.PICKUP_DELIVERY →
      (∀ s ∈ amr.storageSlots, s.isOccupied = false) →
      (executeTask amr t).storageSlots = amr.storageSlots) ∧
    (noEligibleSlot amr.storageSlots t.type →
      (executeTask amr t).storageSlots = amr.storageSlots) := by
  refine ⟨rfl, ?_, ?_⟩
  · intro hty hempty
    simp only [executeTask, hty]
    rw [freeFirst_all_empty amr.storageSlots hempty]
    simp
  · intro hno
    rcases htype : t.type with _ | _ | _ <;>
      simp only [executeTask, htype] <;> rw [htype] at hno
    · exact occupyFirst_all_occupied t.id TaskType.DELIVERY amr.storageSlots hno
    · rw [freeFirst_all_empty amr.storageSlots hno]
    · rw [freeFirst_all_empty amr.storageSlots hno]
      simp

/-- Closed witness for C8: a PICKUP_DELIVERY task executed on a fresh carrier
(all four slots empty) leaves the slots untouched. -/
theorem c8_executeTask_no_failure_witness :
    (executeTask
        ⟨⟨2, 2⟩, [emptySlot, emptySlot, emptySlot, emptySlot]⟩
        ⟨1, TaskType.PICKUP_DELIVERY, ⟨5, 5⟩, 5⟩).position = ⟨5, 5⟩ ∧
    (executeTask
        ⟨⟨2, 2⟩, [emptySlot, emptySlot, emptySlot, emptySlot]⟩
        ⟨1, TaskType.PICKUP_DELIVERY, ⟨5, 5⟩, 5⟩).storageSlots =
      [emptySlot, emptySlot, emptySlot, emptySlot] := by
  have h := c8_executeTask_no_failure
    ⟨⟨2, 2⟩, [emptySlot, emptySlot, emptySlot, emptySlot]⟩
    ⟨1, TaskType.PICKUP_DELIVERY, ⟨5, 5⟩, 5⟩
  exact ⟨h.1, h.2.1 rfl (by decide)⟩

/-- **C9.** The `Task` constructor coalesces both an omitted processing time
and an explicit `0` (falsy in `params.processingTime || 5`) to the default `5`,
so no task built through the constructor ever has processing time `0`. -/
theorem c9_processingTime_default (id : Nat) (ty : TaskType) (pos : Position) :
    (mkTask id ty pos (some 0)).processingTime = 5 ∧
    (mkTask id ty pos none).processingTime = 5 ∧
    ∀ pt : Option Rat, (mkTask id ty pos pt).processingTime ≠ 0 := by
  refine ⟨rfl, rfl, ?_⟩
  intro pt
  match pt with
  | none => simp [mkTask]
  | some p =>
    by_cases hp : p = 0 <;> simp [mkTask, hp]

/-- **C10.** Executing a PICKUP_DELIVERY task never changes the number of
occupied storage slots (either one slot is freed and one occupied, or nothing
was occupied and the state is untouched), and no `executeTask` call ever
changes the length of the slot array. -/
theorem c10_pickup_delivery_preserves_occupancy (amr : AMR) (t : Task) :
    (executeTask amr t).storageSlots.length = amr.storageSlots.length ∧
    (t.type = TaskType.PICKUP_DELIVERY →
      occupiedCount (executeTask amr t).storageSlots =
        occupiedCount amr.storageSlots) := by
  constructor
  · rcases htype : t.type with _ | _ | _ <;> simp only [executeTask, htype]
    · exact occupyFirst_length t.id TaskType.DELIVERY amr.storageSlots
    · exact freeFirst_length amr.storageSlots
    · cases hfree : (freeFirst amr.storageSlots).2
      · simp only [hfree, Bool.false_eq_true, if_neg, not_false_iff]
        exact freeFirst_length amr.storageSlots
      · simp only [hfree, if_pos]
        rw [occupyFirst_length, freeFirst_length]
  · intro hty
    simp only [executeTask, hty]
    by_cases hocc : ∃ s ∈ amr.storageSlots, s.isOccupied = true
    · rcases freeFirst_spec amr.storageSlots hocc with ⟨h1, h2, h3⟩
      rw [h1, if_pos rfl,
        occupyFirst_count t.id TaskType.PICKUP_DELIVERY _ h3, h2]
    · have hempty : ∀ s ∈ amr.storageSlots, s.isOccupied = false := by
        intro s hs
        by_contra hc
        exact hocc ⟨s, hs, by simpa using hc⟩
      rw [freeFirst_all_empty amr.storageSlots hempty]
      simp

/-- Closed witness for C10: a PICKUP_DELIVERY task on a carrier with one
occupied slot keeps the occupied count at 1 and the slot count at 2. -/
theorem c10_pickup_delivery_preserves_occupancy_witness :
    (executeTask ⟨⟨2, 2⟩, [⟨true, some 7, some TaskType.DELIVERY⟩, emptySlot]⟩
        ⟨1, TaskType.PICKUP_DELIVERY, ⟨5, 5⟩, 5⟩).storageSlots.length = 2 ∧
    occupiedCount (executeTask
        ⟨⟨2, 2⟩, [⟨true, some 7, some TaskType.DELIVERY⟩, emptySlot]⟩
        ⟨1, TaskType.PICKUP_DELIVERY, ⟨5, 5⟩, 5⟩).storageSlots = 1 := by
  have h := c10_pickup_delivery_preserves_occupancy
    ⟨⟨2, 2⟩, [⟨true, some 7, some TaskType.DELIVERY⟩, emptySlot]⟩
    ⟨1, TaskType.PICKUP_DELIVERY, ⟨5, 5⟩, 5⟩
  exact ⟨h.1, by rw [h.2 rfl]; decide⟩

theorem buildGroup_perm :
    ∀ (l : List Task) (s : Nat),
      List.Perm ((buildGroup l s).1 ++ (buildGroup l s).2) l := by
  intro l
  induction l with
  | nil => intro s; simp [buildGroup]
  | cons t rest ih =>
    intro s
    by_cases h1 : t.type = TaskType.PICKUP_DELIVERY ∧ 3 ≤ s
    · simp only [buildGroup, if_pos h1]
      exact List.perm_middle.trans ((ih s).cons t)
    · by_cases h2 : 4 ≤ s
      · simp [buildGroup, if_neg h1, if_pos h2]
      · simp only [buildGroup, if_neg h1, if_neg h2, List.cons_append]
        exact (ih (updateSlots s t)).cons t

theorem buildGroup_length (l : List Task) (s : Nat) :
    (buildGroup l s).1.length + (buildGroup l s).2.length = l.length := by
  have h := (buildGroup_perm l s).length_eq
  simpa using h

theorem buildGroup_ok : ∀ (l : List Task) (s : Nat),
    groupOkB s (buildGroup l s).1 = true := by
  intro l
  induction l with
  | nil => intro s; rfl
  | cons t rest ih =>
    intro s
    by_cases h1 : t.type = TaskType.PICKUP_DELIVERY ∧ 3 ≤ s
    · simpa only [buildGroup, if_pos h1] using ih s
    · by_cases h2 : 4 ≤ s
      · simp [buildGroup, if_neg h1, if_pos h2, groupOkB]
      · have hs4 : s < 4 := by omega
        have hupd : updateSlots s t ≤ 4 := by
          rcases htype : t.type with _ | _ | _ <;> simp only [updateSlots, htype]
          · omega
          · omega
          · omega
        simp only [buildGroup, if_neg h1, if_neg h2, groupOkB,
          Bool.and_eq_true, decide_eq_true_eq]
        refine ⟨⟨?_, hupd⟩, ih (updateSlots s t)⟩
        split
        · next hpd =>
          have : ¬ 3 ≤ s := fun hc => h1 ⟨hpd, hc⟩
          simp [Nat.lt_of_not_le this]
        · rfl

theorem buildGroup_head_nonempty (t : Task) (rest : List Task) :
    (buildGroup (t :: rest) 0).1 ≠ [] := by
  have h1 : ¬ (t.type = TaskType.PICKUP_DELIVERY ∧ 3 ≤ 0) := by
    rintro ⟨-, h⟩; omega
  have h2 : ¬ (4 ≤ (0 : Nat)) := by omega
  simp [buildGroup, if_neg h1, if_neg h2]

theorem fifoGroupsAux_perm :
    ∀ (fuel : Nat) (l : List Task), l.length ≤ fuel →
      List.Perm (fifoGroupsAux fuel l).flatten l := by
  intro fuel
  induction fuel with
  | zero =>
    intro l hl
    have : l = [] := List.eq_nil_of_length_eq_zero (Nat.le_zero.mp hl)
    simp [this, fifoGroupsAux]
  | succ fuel ih =>
    intro l hl
    match l with
    | [] => simp [fifoGroupsAux]
    | t :: rest =>
      have hne := buildGroup_head_nonempty t rest
      simp only [fifoGroupsAux, if_neg hne, List.flatten_cons]
      have hlen := buildGroup_length (t :: rest) 0
      have hg1 : 1 ≤ (buildGroup (t :: rest) 0).1.length :=
        Nat.one_le_iff_ne_zero.mpr (fun hz => hne (List.eq_nil_of_length_eq_zero hz))
      have hrem : (buildGroup (t :: rest) 0).2.length ≤ fuel := by
        simp only [List.length_cons] at hl hlen
        omega
      exact (((ih _ hrem).append_left _).trans (buildGroup_perm (t :: rest) 0))

theorem fifoGroupsAux_ok :
    ∀ (fuel : Nat) (l : List Task) (g : List Task),
      g ∈ fifoGroupsAux fuel l → groupOkB 0 g = true := by
  intro fuel
  induction fuel with
  | zero => intro l g hg; simp [fifoGroupsAux] at hg
  | succ fuel ih =>
    intro l g hg
    match l with
    | [] => simp [fifoGroupsAux] at hg
    | t :: rest =>
      by_cases hne : (buildGroup (t :: rest) 0).1 = []
      · simp [fifoGroupsAux, hne] at hg
      · simp only [fifoGroupsAux, if_neg hne, List.mem_cons] at hg
        rcases hg with hg | hg
        · exact hg ▸ buildGroup_ok (t :: rest) 0
        · exact ih _ g hg

/-- **C3.** For every input task list, `scheduleFIFO` terminates and returns a
permutation of the input (every input task exactly once), and every group it
builds passes the claim's capacity check: under the slot update rule the
running occupancy never exceeds 4 and no PICKUP_DELIVERY is admitted while
`slotsUsed >= 3`. -/
theorem c3_fifo_feasible_permutation (tasks : List Task) :
    List.Perm (fifoSchedule tasks) tasks ∧
    ∀ g ∈ fifoGroups tasks, groupOkB 0 g = true := by
  exact ⟨fifoGroupsAux_perm tasks.length tasks le_rfl,
    fun g hg => fifoGroupsAux_ok tasks.length tasks g hg⟩

/-- Closed witness for C3: five PICKUP_DELIVERY tasks go through the scheduler
as one single feasible group, in arrival order. -/
theorem c3_fifo_feasible_permutation_witness :
    List.Perm (fifoSchedule pdFive) pdFive ∧ groupOkB 0 pdFive = true :=
  ⟨(c3_fifo_feasible_permutation pdFive).1,
    (c3_fifo_feasible_permutation pdFive).2 pdFive (by decide)⟩

/-- **C4.** The evaluator starts a virtual carrier at (2,2) with time 0 and
follows exactly the step rule of the claim (first conjunct, which is the
definitional unfolding), and on the concrete scenario
[DELIVERY@(5,5) pt=5, PICKUP@(6,5) pt=3, DELIVERY@(7,5) pt=4] it returns
makespan = sqrt 18 + 14 (about 18.2426) and idleDistance = sqrt 18 + 1
(about 5.2426), where sqrt 18 is the distance from (2,2) to (5,5). -/
theorem c4_evaluator_scenario :
    (∀ (pos : Position) (time idle : ℝ) (t : Task) (ts : List Task),
      metricsAux pos time idle (t :: ts) =
        metricsAux t.position (time + euclid pos t.position + (t.processingTime : ℝ))
          (idle + if t.type = TaskType.DELIVERY then euclid pos t.position else 0) ts) ∧
    (∀ solution : List Task, calculateMetrics solution = metricsAux ⟨2, 2⟩ 0 0 solution) ∧
    calculateMetrics
      [⟨1, TaskType.DELIVERY, ⟨5, 5⟩, 5⟩,
       ⟨2, TaskType.PICKUP, ⟨6, 5⟩, 3⟩,
       ⟨3, TaskType.DELIVERY, ⟨7, 5⟩, 4⟩] =
      (Real.sqrt 18 + 14, Real.sqrt 18 + 1) := by
  refine ⟨fun pos time idle t ts => rfl, fun solution => rfl, ?_⟩
  have h18 : euclid ⟨2, 2⟩ ⟨5, 5⟩ = Real.sqrt 18 := by
    simp only [euclid]
    norm_num
  have h1 : euclid ⟨5, 5⟩ ⟨6, 5⟩ = 1 := by
    simp only [euclid]
    norm_num
  have h1' : euclid ⟨6, 5⟩ ⟨7, 5⟩ = 1 := by
    simp only [euclid]
    norm_num
  simp only [calculateMetrics, metricsAux, h18, h1, h1', if_pos rfl, reduceCtorEq,
    if_neg, Prod.mk.injEq]
  norm_num
  ring

theorem mem_segIds {other : List Task} {p1 p2 x : Nat} :
    x ∈ segIds other p1 p2 ↔
    ∃ i, (i < other.length ∧ p1 ≤ i ∧ i ≤ p2) ∧
      ∃ t, other[i]? = some t ∧ t.id = x := by
  simp [segIds, segIdxs, List.mem_filterMap, Option.map_eq_some', List.mem_filter,
    List.mem_range, and_assoc]

theorem nodup_ids_getElem?_ne {l : List Task} (h : (l.map Task.id).Nodup)
    {i j : Nat} {t u : Task} (hi : l[i]? = some t) (hj : l[j]? = some u)
    (hij : i ≠ j) : t.id ≠ u.id := by
  intro he
  apply hij
  have hmi : (l.map Task.id)[i]? = some t.id := by
    rw [List.getElem?_map, hi, Option.map_some']
  have hmj : (l.map Task.id)[j]? = some u.id := by
    rw [List.getElem?_map, hj, Option.map_some']
  have hil : i < (l.map Task.id).length := by
    rcases List.getElem?_eq_some.mp hi with ⟨hb, -⟩
    simpa using hb
  exact List.getElem?_inj hil h (by rw [hmi, hmj, he])

theorem findUnused_sound (parent : List Task) (used : Finset Nat) :
    ∀ (fuel j j' : Nat), findUnused parent used fuel j = some j' →
      ∃ t, parent[j']? = some t ∧ t.id ∉ used := by
  intro fuel
  induction fuel with
  | zero => intro j j' h; simp [findUnused] at h
  | succ fuel ih =>
    intro j j' h
    rcases hget : parent[j]? with - | t
    · simp only [findUnused, hget] at h
      exact Option.noConfusion h
    · simp only [findUnused, hget] at h
      by_cases hmem : t.id ∈ used
      · rw [if_pos hmem] at h
        exact ih _ _ h
      · rw [if_neg hmem] at h
        obtain rfl : j = j' := Option.some_inj.mp h
        exact ⟨t, hget, hmem⟩

theorem findUnused_complete (parent : List Task) (used : Finset Nat) :
    ∀ (fuel j : Nat), j < parent.length →
      (∃ k, k < fuel ∧
        ∃ t, parent[(j + k) % parent.length]? = some t ∧ t.id ∉ used) →
      ∃ j', findUnused parent used fuel j = some j' := by
  intro fuel
  induction fuel with
  | zero =>
    rintro j hj ⟨k, hk, -⟩
    omega
  | succ fuel ih =>
    rintro j hj ⟨k, hk, t, hget, hnu⟩
    have hlen : 0 < parent.length := by omega
    obtain ⟨tj, htj⟩ : ∃ tj, parent[j]? = some tj :=
      ⟨parent[j], List.getElem?_eq_getElem hj⟩
    by_cases hmem : tj.id ∈ used
    · have hk0 : k ≠ 0 := by
        intro h0
        rw [h0, Nat.add_zero, Nat.mod_eq_of_lt hj, htj] at hget
        obtain rfl : tj = t := Option.some_inj.mp hget
        exact hnu hmem
      obtain ⟨k', rfl⟩ : ∃ k', k = k' + 1 := ⟨k - 1, by omega⟩
      have hrec := ih ((j + 1) % parent.length) (Nat.mod_lt _ hlen) ?_
      · rcases hrec with ⟨j', hj'⟩
        refine ⟨j', ?_⟩
        simp only [findUnused, htj, if_pos hmem]
        exact hj'
      · refine ⟨k', by omega, t, ?_, hnu⟩
        have hmod : ((j + 1) % parent.length + k') % parent.length =
            (j + (k' + 1)) % parent.length := by
          rw [Nat.mod_add_mod]
          congr 1
          omega
        rw [hmod]
        exact hget
    · refine ⟨j, ?_⟩
      simp only [findUnused, htj, if_neg hmem]

theorem exists_unused (parent : List Task)
    (hpn : (parent.map Task.id).Nodup) (used : Finset Nat)
    (hsub : used ⊆ (parent.map Task.id).toFinset)
    (hcard : used.card < parent.length) :
    ∃ idx, idx < parent.length ∧
      ∃ t, parent[idx]? = some t ∧ t.id ∉ used := by
  have hScard : (parent.map Task.id).toFinset.card = parent.length := by
    rw [List.toFinset_card_of_nodup hpn, List.length_map]
  have hss : used ⊂ (parent.map Task.id).toFinset := by
    refine Finset.ssubset_iff_subset_ne.mpr ⟨hsub, ?_⟩
    intro he
    rw [he, hScard] at hcard
    omega
  rcases Finset.exists_of_ssubset hss with ⟨x, hxS, hxu⟩
  rcases List.mem_map.mp (List.mem_toFinset.mp hxS) with ⟨t, htmem, htid⟩
  rcases List.mem_iff_getElem?.mp htmem with ⟨idx, hidx⟩
  exact ⟨idx, (List.getElem?_eq_some.mp hidx).1, t, hidx, htid ▸ hxu⟩

theorem exists_cyclic_witness (parent : List Task) (used : Finset Nat)
    (i : Nat) (hi : i < parent.length)
    (h : ∃ idx, idx < parent.length ∧
      ∃ t, parent[idx]? = some t ∧ t.id ∉ used) :
    ∃ k, k < parent.length ∧
      ∃ t, parent[(i + k) % parent.length]? = some t ∧ t.id ∉ used := by
  rcases h with ⟨idx, hidx, t, hget, hnu⟩
  have hlen : 0 < parent.length := by omega
  refine ⟨(idx + (parent.length - i)) % parent.length, Nat.mod_lt _ hlen,
    t, ?_, hnu⟩
  have hmod : (i + (idx + (parent.length - i)) % parent.length) % parent.length
      = idx := by
    rw [Nat.add_mod_mod]
    have he : i + (idx + (parent.length - i)) = idx + parent.length := by omega
    rw [he, Nat.add_mod_right, Nat.mod_eq_of_lt hidx]
  rw [hmod]
  exact hget

theorem pmxGo_spec (parent other : List Task) (p1 p2 : Nat)
    (hpn : (parent.map Task.id).Nodup) (hon : (other.map Task.id).Nodup)
    (hlen : other.length = parent.length)
    (_hS : (other.map Task.id).toFinset = (parent.map Task.id).toFinset) :
    ∀ (idxs : List Nat) (used : Finset Nat),
      idxs.Nodup → (∀ i ∈ idxs, i < parent.length) →
      segIds other p1 p2 ⊆ used →
      used ⊆ (parent.map Task.id).toFinset →
      used.card +
        (idxs.filter (fun i => !(decide (p1 ≤ i ∧ i ≤ p2)))).length ≤
          parent.length →
      ∃ L, pmxGo parent other p1 p2 idxs used = some L ∧
        L.length = idxs.length ∧
        (∀ t ∈ L, t ∈ parent ∨ t ∈ other) ∧
        (L.map Task.id).Nodup ∧
        (∀ t ∈ L, t.id ∉ used ∨
          ∃ i ∈ idxs, (p1 ≤ i ∧ i ≤ p2) ∧ other[i]? = some t) := by
  intro idxs
  induction idxs with
  | nil =>
    intro used _ _ _ _ _
    exact ⟨[], rfl, rfl, by simp, by simp, by simp⟩
  | cons i rest ih =>
    intro used hnd hbound hseg hsub hcard
    have hi : i < parent.length := hbound i (List.mem_cons_self i rest)
    have hndr : rest.Nodup := (List.nodup_cons.mp hnd).2
    have hnotmem : i ∉ rest := (List.nodup_cons.mp hnd).1
    have hboundr : ∀ x ∈ rest, x < parent.length :=
      fun x hx => hbound x (List.mem_cons_of_mem i hx)
    by_cases hin : p1 ≤ i ∧ i ≤ p2
    · have hiother : i < other.length := hlen ▸ hi
      obtain ⟨t, ht⟩ : ∃ t, other[i]? = some t :=
        ⟨other[i], List.getElem?_eq_getElem hiother⟩
      have htused : t.id ∈ used :=
        hseg (mem_segIds.mpr ⟨i, ⟨hiother, hin⟩, t, ht, rfl⟩)
      have hfiltereq :
          List.filter (fun x => !(decide (p1 ≤ x ∧ x ≤ p2))) (i :: rest) =
          List.filter (fun x => !(decide (p1 ≤ x ∧ x ≤ p2))) rest := by
        rw [List.filter_cons]
        have hb : (!(decide (p1 ≤ i ∧ i ≤ p2))) = false := by simp [hin]
        rw [hb]
        simp
      rw [hfiltereq] at hcard
      obtain ⟨L, hL, hLlen, hLmem, hLnd, hLprop⟩ :=
        ih used hndr hboundr hseg hsub hcard
      refine ⟨t :: L, ?_, by simp [hLlen], ?_, ?_, ?_⟩
      · simp only [pmxGo, if_pos hin, ht, hL]
      · intro u hu
        rcases List.mem_cons.mp hu with rfl | hu
        · exact Or.inr (List.getElem?_mem ht)
        · exact hLmem u hu
      · simp only [List.map_cons, List.nodup_cons]
        refine ⟨?_, hLnd⟩
        intro hmem
        rcases List.mem_map.mp hmem with ⟨u, huL, huid⟩
        rcases hLprop u huL with hfresh | ⟨i', hi'rest, hi'in, hu⟩
        · exact hfresh (huid ▸ htused)
        · have hne : i' ≠ i := fun he => hnotmem (he ▸ hi'rest)
          exact nodup_ids_getElem?_ne hon hu ht hne huid
      · intro u hu
        rcases List.mem_cons.mp hu with rfl | hu
        · exact Or.inr ⟨i, List.mem_cons_self i rest, hin, ht⟩
        · rcases hLprop u hu with hfresh | ⟨i', hi', hprops⟩
          · exact Or.inl hfresh
          · exact Or.inr ⟨i', List.mem_cons_of_mem i hi', hprops⟩
    · have hcount :
          (List.filter (fun x => !(decide (p1 ≤ x ∧ x ≤ p2))) (i :: rest)).length
          = (List.filter (fun x => !(decide (p1 ≤ x ∧ x ≤ p2))) rest).length
            + 1 := by
        rw [List.filter_cons]
        have hb : (!(decide (p1 ≤ i ∧ i ≤ p2))) = true := by simp [hin]
        rw [hb]
        simp
      have hucard : used.card < parent.length := by omega
      obtain ⟨j, hj⟩ := findUnused_complete parent used parent.length i hi
        (exists_cyclic_witness parent used i hi
          (exists_unused parent hpn used hsub hucard))
      obtain ⟨t, hgt, htnu⟩ := findUnused_sound parent used parent.length i j hj
      have hsub' : insert t.id used ⊆ (parent.map Task.id).toFinset := by
        intro x hx
        rcases Finset.mem_insert.mp hx with rfl | hx
        · exact List.mem_toFinset.mpr
            (List.mem_map.mpr ⟨t, List.getElem?_mem hgt, rfl⟩)
        · exact hsub hx
      have hseg' : segIds other p1 p2 ⊆ insert t.id used :=
        fun x hx => Finset.mem_insert_of_mem (hseg hx)
      have hcard' : (insert t.id used).card +
          (rest.filter (fun x => !(decide (p1 ≤ x ∧ x ≤ p2)))).length ≤
          parent.length := by
        have hle := Finset.card_insert_le t.id used
        omega
      obtain ⟨L, hL, hLlen, hLmem, hLnd, hLprop⟩ :=
        ih (insert t.id used) hndr hboundr hseg' hsub' hcard'
      refine ⟨t :: L, ?_, by simp [hLlen], ?_, ?_, ?_⟩
      · simp only [pmxGo, if_neg hin, hj, hgt, hL]
      · intro u hu
        rcases List.mem_cons.mp hu with rfl | hu
        · exact Or.inl (List.getElem?_mem hgt)
        · exact hLmem u hu
      · simp only [List.map_cons, List.nodup_cons]
        refine ⟨?_, hLnd⟩
        intro hmem
        rcases List.mem_map.mp hmem with ⟨u, huL, huid⟩
        rcases hLprop u huL with hfresh | ⟨i', hi'rest, hi'in, hu⟩
        · exact hfresh (huid ▸ Finset.mem_insert_self t.id used)
        · have huseg : u.id ∈ used := by
            apply hseg
            apply mem_segIds.mpr
            exact ⟨i', ⟨(List.getElem?_eq_some.mp hu).1, hi'in⟩, u, hu, rfl⟩
          exact htnu (huid ▸ huseg)
      · intro u hu
        rcases List.mem_cons.mp hu with rfl | hu
        · exact Or.inl htnu
        · rcases hLprop u hu with hfresh | ⟨i', hi', hprops⟩
          · exact Or.inl (fun hx => hfresh (Finset.mem_insert_of_mem hx))
          · exact Or.inr ⟨i', List.mem_cons_of_mem i hi', hprops⟩

theorem pmx_perm (tasks c1 c2 : List Task) (p1 p2 : Nat)
    (hids : (tasks.map Task.id).Nodup)
    (h1 : List.Perm c1 tasks) (h2 : List.Perm c2 tasks) :
    ∃ L, pmx c1 c2 p1 p2 = some L ∧ List.Perm L tasks := by
  have hm1 : List.Perm (c1.map Task.id) (tasks.map Task.id) := h1.map _
  have hm2 : List.Perm (c2.map Task.id) (tasks.map Task.id) := h2.map _
  have hpn : (c1.map Task.id).Nodup := hm1.nodup_iff.mpr hids
  have hon : (c2.map Task.id).Nodup := hm2.nodup_iff.mpr hids
  have hlen : c2.length = c1.length := by rw [h2.length_eq, h1.length_eq]
  have hS : (c2.map Task.id).toFinset = (c1.map Task.id).toFinset := by
    rw [List.toFinset_eq_of_perm _ _ hm2, List.toFinset_eq_of_perm _ _ hm1]
  have hsub0 : segIds c2 p1 p2 ⊆ (c1.map Task.id).toFinset := by
    intro x hx
    rcases mem_segIds.mp hx with ⟨i, -, t, hget, rfl⟩
    rw [← hS]
    exact List.mem_toFinset.mpr
      (List.mem_map.mpr ⟨t, List.getElem?_mem hget, rfl⟩)
  have hcard0 : (segIds c2 p1 p2).card +
      ((List.range c1.length).filter
        (fun i => !(decide (p1 ≤ i ∧ i ≤ p2)))).length ≤ c1.length := by
    have e1 : (segIds c2 p1 p2).card ≤ (segIdxs c2.length p1 p2).length :=
      le_trans (List.toFinset_card_le _) (List.length_filterMap_le _ _)
    have e2 : (segIdxs c1.length p1 p2).length +
        ((List.range c1.length).filter
          (fun i => !(decide (p1 ≤ i ∧ i ≤ p2)))).length = c1.length := by
      have h := (List.length_eq_length_filter_add
        (l := List.range c1.length) (fun i => decide (p1 ≤ i ∧ i ≤ p2)))
      simpa [segIdxs] using h.symm
    rw [hlen] at e1
    omega
  obtain ⟨L, hL, hLlen, hLmem, hLnd, -⟩ := pmxGo_spec c1 c2 p1 p2 hpn hon hlen hS
    (List.range c1.length) (segIds c2 p1 p2) (List.nodup_range _)
    (fun i h => List.mem_range.mp h) (fun x hx => hx) hsub0 hcard0
  have hlenL : L.length = tasks.length := by
    rw [hLlen, List.length_range, h1.length_eq]
  have hLsub : ∀ t ∈ L, t ∈ tasks := by
    intro t ht
    rcases hLmem t ht with h | h
    · exact h1.mem_iff.mp h
    · exact h2.mem_iff.mp h
  have hLnodup : L.Nodup := List.Nodup.of_map _ hLnd
  have htasksnd : tasks.Nodup := List.Nodup.of_map _ hids
  have hsubF : L.toFinset ⊆ tasks.toFinset :=
    fun x hx => List.mem_toFinset.mpr (hLsub x (List.mem_toFinset.mp hx))
  have hcards : tasks.toFinset.card ≤ L.toFinset.card := by
    rw [List.toFinset_card_of_nodup hLnodup, List.toFinset_card_of_nodup htasksnd,
      hlenL]
  exact ⟨L, hL, List.perm_of_nodup_nodup_toFinset_eq hLnodup htasksnd
    (Finset.eq_of_subset_of_card_le hsubF hcards)⟩

theorem gaGroupsAux_flatten : ∀ (l current : List Task) (s : Nat),
    (gaGroupsAux l current s).flatten = current ++ l := by
  intro l
  induction l with
  | nil =>
    intro current s
    by_cases h : current = [] <;> simp [gaGroupsAux, h]
  | cons t rest ih =>
    intro current s
    by_cases h : (t.type = TaskType.PICKUP_DELIVERY ∧ 3 ≤ s) ∨ 4 ≤ s
    · simp [gaGroupsAux, h, ih]
    · simp [gaGroupsAux, h, ih]

/-- The grouping walk of `createRandomChromosome` visits every shuffled task
exactly once in order, so flattening the groups returns the shuffle itself. -/
theorem createRandomChromosome_eq (shuffled : List Task) :
    createRandomChromosome shuffled = shuffled := by
  simp [createRandomChromosome, gaGroupsAux_flatten]

theorem set_getElem?_self : ∀ (l : List Task) (k : Nat) (a : Task),
    l[k]? = some a → l.set k a = l := by
  intro l
  induction l with
  | nil => intro k a h; simp at h
  | cons x xs ih =>
    intro k a h
    match k with
    | 0 =>
      obtain rfl : x = a := by simpa using h
      simp
    | k + 1 =>
      have h' : xs[k]? = some a := by simpa using h
      simp [ih k a h']

theorem set_cons_perm : ∀ (l : List Task) (k : Nat) (a b : Task),
    l[k]? = some a → List.Perm (b :: l) (a :: l.set k b) := by
  intro l
  induction l with
  | nil => intro k a b h; simp at h
  | cons x xs ih =>
    intro k a b h
    match k with
    | 0 =>
      obtain rfl : x = a := by simpa using h
      simpa using List.Perm.swap x b xs
    | k + 1 =>
      have h' : xs[k]? = some a := by simpa using h
      have step1 : List.Perm (b :: x :: xs) (x :: b :: xs) := List.Perm.swap x b xs
      have step2 : List.Perm (x :: b :: xs) (x :: a :: xs.set k b) :=
        (ih k a b h').cons x
      have step3 : List.Perm (x :: a :: xs.set k b) (a :: x :: xs.set k b) :=
        List.Perm.swap a x (xs.set k b)
      simpa using (step1.trans step2).trans step3

theorem swapMutation_perm (ch : List Task) (i j : Nat)
    (hi : i < ch.length) (hj : j < ch.length) :
    List.Perm (swapMutation ch i j) ch := by
  have hti : ch[i]? = some ch[i] := List.getElem?_eq_getElem hi
  have htj : ch[j]? = some ch[j] := List.getElem?_eq_getElem hj
  simp only [swapMutation, hti, htj]
  by_cases hij : i = j
  · subst hij
    rw [List.set_set, set_getElem?_self ch i ch[i] hti]
  · have hsetj : (ch.set i ch[j])[j]? = some ch[j] := by
      rw [List.getElem?_set_ne hij]
      exact htj
    have h1 : List.Perm (ch[j] :: ch) (ch[i] :: ch.set i ch[j]) :=
      set_cons_perm ch i ch[i] ch[j] hti
    have h2 : List.Perm (ch[i] :: ch.set i ch[j])
        (ch[j] :: (ch.set i ch[j]).set j ch[i]) :=
      set_cons_perm (ch.set i ch[j]) j ch[j] ch[i] hsetj
    exact ((h1.trans h2).cons_inv).symm

theorem inversionMutation_perm (ch : List Task) (p1 p2 : Nat) (h12 : p1 ≤ p2) :
    List.Perm (inversionMutation ch p1 p2) ch := by
  have hdecomp : ch = ch.take p1 ++
      (((ch.drop p1).take (p2 + 1 - p1)) ++ ch.drop (p2 + 1)) := by
    conv_lhs => rw [← List.take_append_drop p1 ch]
    congr 1
    conv_lhs => rw [← List.take_append_drop (p2 + 1 - p1) (ch.drop p1)]
    congr 1
    rw [List.drop_drop]
    congr 1
    omega
  have hperm : List.Perm
      (ch.take p1 ++ (((ch.drop p1).take (p2 + 1 - p1)).reverse ++ ch.drop (p2 + 1)))
      (ch.take p1 ++ (((ch.drop p1).take (p2 + 1 - p1)) ++ ch.drop (p2 + 1))) :=
    ((List.reverse_perm _).append_right _).append_left _
  rw [inversionMutation, List.append_assoc]
  conv_rhs => rw [hdecomp]
  exact hperm

/-- **C1 (counterexample to the claim as stated).** On the empty task list
(whose ids are vacuously pairwise distinct) every chromosome is the empty
permutation, and each of the three genetic operators can corrupt it.  Swap
mutation draws indices `Math.floor(Math.random() * 0) = 0` and the
destructuring assignment writes index 0 of the empty array.  Crossover and
inversion compute `point1 = Math.floor(Math.random() * (length - 1))`, which
at the possible draw `Math.random() = 0` is `-0` — the array index 0 — with
`point2 = point1`; the crossover segment-copy loop then executes
`offspring[0] = other[0]` on the empty offspring, and the inversion write-back
loop executes `chromosome[0] = segment[0]` on the empty chromosome.  In each
case the array grows to a one-element array holding an undefined entry: the
length changes, so the result is not a permutation of the empty task set. -/
theorem c1_counterexample :
    (swapMutationRaw ([] : List (Option Task)) 0 0 = [none] ∧
      (swapMutationRaw ([] : List (Option Task)) 0 0).length ≠
        ([] : List (Option Task)).length) ∧
    (segmentCopyRaw ([] : List (Option Task)) 0 0 0 = [none] ∧
      (segmentCopyRaw ([] : List (Option Task)) 0 0 0).length ≠
        ([] : List (Option Task)).length) ∧
    (inversionMutationRaw ([] : List (Option Task)) 0 0 = [none] ∧
      (inversionMutationRaw ([] : List (Option Task)) 0 0).length ≠
        ([] : List (Option Task)).length) := by
  refine ⟨⟨rfl, by decide⟩, ⟨rfl, by decide⟩, ⟨rfl, by decide⟩⟩

/-- **C1 (amended).** For every input task list with pairwise distinct ids:
every chromosome built by the random constraint-grouping construction from a
shuffle is a permutation of the task set; both PMX offspring of permutation
parents are permutations of the task set whenever the crossover points
satisfy `p1 <= p2 < length`; and the mutation operators preserve being a
permutation whenever their drawn indices lie within the chromosome.  These
index conditions hold for every drawable random point when the task list is
nonempty; on the empty task list the possible draw `Math.random() = 0` makes
swap, the crossover segment copy, and inversion each write index 0 of an
empty array, growing the chromosome to a single undefined entry — see the
counterexample. -/
theorem c1_permutation_invariant (tasks : List Task)
    (hids : (tasks.map Task.id).Nodup) :
    (∀ shuffled : List Task, List.Perm shuffled tasks →
      List.Perm (createRandomChromosome shuffled) tasks) ∧
    (∀ (c1 c2 : List Task) (p1 p2 : Nat),
      List.Perm c1 tasks → List.Perm c2 tasks →
      p1 ≤ p2 → p2 < c1.length →
      ∃ o1 o2, crossover c1 c2 p1 p2 = (some o1, some o2) ∧
        List.Perm o1 tasks ∧ List.Perm o2 tasks) ∧
    (∀ ch : List Task, List.Perm ch tasks →
      (∀ i j, i < ch.length → j < ch.length →
        List.Perm (swapMutation ch i j) tasks) ∧
      (∀ p1 p2, p1 ≤ p2 → p2 < ch.length →
        List.Perm (inversionMutation ch p1 p2) tasks)) := by
  refine ⟨?_, ?_, ?_⟩
  · intro shuffled hsh
    rw [createRandomChromosome_eq]
    exact hsh
  · intro c1 c2 p1 p2 h1 h2 _ _
    obtain ⟨o1, ho1, hp1⟩ := pmx_perm tasks c1 c2 p1 p2 hids h1 h2
    obtain ⟨o2, ho2, hp2⟩ := pmx_perm tasks c2 c1 p1 p2 hids h2 h1
    exact ⟨o1, o2, by simp [crossover, ho1, ho2], hp1, hp2⟩
  · intro ch hch
    constructor
    · intro i j hi hj
      exact (swapMutation_perm ch i j hi hj).trans hch
    · intro p1 p2 h12 _
      exact (inversionMutation_perm ch p1 p2 h12).trans hch

/-- Closed witness for the amended C1: a concrete two-task set. -/
theorem c1_permutation_invariant_witness :
    List.Perm
      (createRandomChromosome
        [⟨2, TaskType.PICKUP, ⟨6, 5⟩, 3⟩, ⟨1, TaskType.DELIVERY, ⟨5, 5⟩, 5⟩])
      [⟨1, TaskType.DELIVERY, ⟨5, 5⟩, 5⟩, ⟨2, TaskType.PICKUP, ⟨6, 5⟩, 3⟩] ∧
    (∃ o1 o2, crossover
        [⟨2, TaskType.PICKUP, ⟨6, 5⟩, 3⟩, ⟨1, TaskType.DELIVERY, ⟨5, 5⟩, 5⟩]
        [⟨1, TaskType.DELIVERY, ⟨5, 5⟩, 5⟩, ⟨2, TaskType.PICKUP, ⟨6, 5⟩, 3⟩]
        0 0 = (some o1, some o2) ∧
      List.Perm o1
        [⟨1, TaskType.DELIVERY, ⟨5, 5⟩, 5⟩, ⟨2, TaskType.PICKUP, ⟨6, 5⟩, 3⟩] ∧
      List.Perm o2
        [⟨1, TaskType.DELIVERY, ⟨5, 5⟩, 5⟩, ⟨2, TaskType.PICKUP, ⟨6, 5⟩, 3⟩]) ∧
    List.Perm
      (swapMutation
        [⟨1, TaskType.DELIVERY, ⟨5, 5⟩, 5⟩, ⟨2, TaskType.PICKUP, ⟨6, 5⟩, 3⟩] 0 1)
      [⟨1, TaskType.DELIVERY, ⟨5, 5⟩, 5⟩, ⟨2, TaskType.PICKUP, ⟨6, 5⟩, 3⟩] ∧
    List.Perm
      (inversionMutation
        [⟨1, TaskType.DELIVERY, ⟨5, 5⟩, 5⟩, ⟨2, TaskType.PICKUP, ⟨6, 5⟩, 3⟩] 0 1)
      [⟨1, TaskType.DELIVERY, ⟨5, 5⟩, 5⟩, ⟨2, TaskType.PICKUP, ⟨6, 5⟩, 3⟩] := by
  have h := c1_permutation_invariant
    [⟨1, TaskType.DELIVERY, ⟨5, 5⟩, 5⟩, ⟨2, TaskType.PICKUP, ⟨6, 5⟩, 3⟩]
    (by decide)
  refine ⟨?_, ?_, ?_, ?_⟩
  · exact h.1 _ (by decide)
  · exact h.2.1 _ _ 0 0 (by decide) (by decide) (by decide) (by decide)
  · exact (h.2.2 _ (by decide)).1 0 1 (by decide) (by decide)
  · exact (h.2.2 _ (by decide)).2 0 1 (by decide) (by decide)

theorem stepState_best_le (esg : Nat) (thr : Rat) (st : RunState)
    (big : Individual) :
    (stepState esg thr st big).1.best.fitness ≤ st.best.fitness := by
  by_cases h1 : st.lastBest - big.fitness > thr <;>
    by_cases h2 : big.fitness < st.best.fitness <;>
      simp [stepState, h1, h2, le_of_lt]

theorem chain_glue : ∀ {A : List Rat} {b b' : Rat} {B : List Rat},
    List.Chain' (fun x y => y ≤ x) (b :: A) →
    A.getLastD b = b' →
    List.Chain' (fun x y => y ≤ x) (b' :: B) →
    List.Chain' (fun x y => y ≤ x) (b :: (A ++ B)) := by
  intro A
  induction A with
  | nil =>
    intro b b' B _ h2 h3
    obtain rfl : b = b' := h2
    simpa using h3
  | cons a A' ih =>
    intro b b' B h1 h2 h3
    rcases List.chain'_cons.mp h1 with ⟨hba, h1'⟩
    have h2' : A'.getLastD a = b' := by
      rw [List.getLastD_cons] at h2
      exact h2
    have hrec := ih h1' h2' h3
    rw [List.cons_append]
    exact List.chain'_cons.mpr ⟨hba, hrec⟩

theorem innerChunkF_chain (esg : Nat) (thr : Rat)
    (pops : Nat → List Individual) :
    ∀ (fuel g : Nat) (st : RunState),
      List.Chain' (fun a b => b ≤ a)
        (st.best.fitness :: genFits (innerChunkF esg thr pops fuel g st).1) ∧
      (∀ st' brk,
        (innerChunkF esg thr pops fuel g st).2 = some (st', brk) →
        (genFits (innerChunkF esg thr pops fuel g st).1).getLastD
          st.best.fitness = st'.best.fitness) := by
  intro fuel
  induction fuel with
  | zero =>
    intro g st
    constructor
    · simp [innerChunkF, genFits]
    · intro st' brk h
      simp only [innerChunkF, Option.some_inj, Prod.mk.injEq] at h
      obtain ⟨rfl, rfl⟩ := h
      simp [innerChunkF, genFits]
  | succ fuel ih =>
    intro g st
    rcases hfb : findBest (pops (g + 1)) with - | big
    · constructor
      · simp [innerChunkF, hfb, genFits]
      · intro st' brk h
        simp [innerChunkF, hfb] at h
    · have hle := stepState_best_le esg thr st big
      by_cases hstop : (stepState esg thr st big).2 = true
      · constructor
        · simp only [innerChunkF, hfb, hstop, if_pos, genFits,
            List.filterMap_cons, List.filterMap_nil]
          exact List.chain'_cons.mpr ⟨hle, List.chain'_singleton _⟩
        · intro st' brk h
          simp only [innerChunkF, hfb, hstop, if_pos, Option.some_inj,
            Prod.mk.injEq] at h
          obtain ⟨rfl, rfl⟩ := h
          simp [innerChunkF, hfb, hstop, genFits]
      · have hfalse : (stepState esg thr st big).2 = false :=
          Bool.eq_false_iff.mpr hstop
        rcases ih (g + 1) (stepState esg thr st big).1 with ⟨ihc, ihl⟩
        constructor
        · simp only [innerChunkF, hfb, hfalse, Bool.false_eq_true, if_neg,
            not_false_iff, genFits, List.filterMap_cons]
          exact List.chain'_cons.mpr ⟨hle, ihc⟩
        · intro st' brk h
          simp only [innerChunkF, hfb, hfalse, Bool.false_eq_true, if_neg,
            not_false_iff] at h
          simp only [innerChunkF, hfb, hfalse, Bool.false_eq_true, if_neg,
            not_false_iff, genFits, List.filterMap_cons, List.getLastD_cons]
          exact ihl st' brk h

theorem gaLoopF_chain (chunk maxGen esg : Nat) (thr : Rat)
    (pops : Nat → List Individual) :
    ∀ (fuel generation : Nat) (st : RunState),
      List.Chain' (fun a b => b ≤ a)
        (st.best.fitness ::
          genFits (gaLoopF chunk maxGen esg thr pops fuel generation st).1) := by
  intro fuel
  induction fuel with
  | zero =>
    intro generation st
    by_cases h : generation < maxGen <;> simp [gaLoopF, h, genFits]
  | succ fuel ih =>
    intro generation st
    by_cases h : generation < maxGen
    · simp only [gaLoopF, if_pos h]
      have hinner := innerChunkF_chain esg thr pops
        (min (generation + chunk) maxGen - generation) generation st
      rcases hr : (innerChunk esg thr pops generation
          (min (generation + chunk) maxGen) st).2 with - | ⟨st', brk⟩
      · simpa [innerChunk] using hinner.1
      · have h2 := hinner.2 st' brk (by simpa [innerChunk] using hr)
        have hglue := chain_glue
          (B := genFits (gaLoopF chunk maxGen esg thr pops fuel
            (min (generation + chunk) maxGen) st').1)
          hinner.1 h2 (ih (min (generation + chunk) maxGen) st')
        simpa [innerChunk, genFits, List.filterMap_append] using hglue
    · simp [gaLoopF, h, genFits]

/-- **C2.** For every run of the genetic scheduler (every initial population,
every sequence of evaluated populations, every task list and generation
bound), the tracked-best fitness values reported by successive
`onGenerationComplete` invocations are non-increasing, from generation 0
onward: the engine only replaces its tracked best by a strictly smaller
fitness. -/
theorem c2_reported_best_nonincreasing (tasks : List Task)
    (pop0 : List Individual) (pops : Nat → List Individual) (maxGen : Nat) :
    List.Chain' (fun a b => b ≤ a)
      (genFits (runGA tasks pop0 pops maxGen).1) := by
  rcases hfb : findBest pop0 with - | ib
  · simp [runGA, hfb, genFits]
  · simp only [runGA, hfb]
    have h := gaLoopF_chain (chunkSize tasks) maxGen (earlyStopGens tasks)
      (1 / 1000) pops maxGen 0 ⟨ib.fitness, 0, ib⟩
    simpa [genFits] using h

theorem innerChunkF_counts (esg : Nat) (thr : Rat)
    (pops : Nat → List Individual) :
    ∀ (fuel g : Nat) (st : RunState),
      genCount (innerChunkF esg thr pops fuel g st).1 ≤ fuel ∧
      completeCount (innerChunkF esg thr pops fuel g st).1 = 0 := by
  intro fuel
  induction fuel with
  | zero => intro g st; simp [innerChunkF, genCount, completeCount]
  | succ fuel ih =>
    intro g st
    rcases hfb : findBest (pops (g + 1)) with - | big
    · simp [innerChunkF, hfb, genCount, completeCount]
    · by_cases hstop : (stepState esg thr st big).2 = true
      · simp [innerChunkF, hfb, hstop, genCount, completeCount]
      · have hfalse : (stepState esg thr st big).2 = false :=
          Bool.eq_false_iff.mpr hstop
        have := ih (g + 1) (stepState esg thr st big).1
        simp [innerChunkF, hfb, hfalse, genCount, completeCount,
          List.filter_cons] at this ⊢
        exact ⟨by omega, this.2⟩

theorem gaLoopF_counts (chunk maxGen esg : Nat) (thr : Rat)
    (pops : Nat → List Individual) :
    ∀ (fuel generation : Nat) (st : RunState),
      genCount (gaLoopF chunk maxGen esg thr pops fuel generation st).1 ≤
        maxGen - generation ∧
      completeCount (gaLoopF chunk maxGen esg thr pops fuel generation st).1 =
        (if (gaLoopF chunk maxGen esg thr pops fuel generation st).2 then 1
          else 0) ∧
      ((gaLoopF chunk maxGen esg thr pops fuel generation st).2 = true →
        (gaLoopF chunk maxGen esg thr pops fuel generation st).1.getLast? =
          some Event.complete) := by
  intro fuel
  induction fuel with
  | zero =>
    intro generation st
    by_cases h : generation < maxGen <;>
      simp [gaLoopF, h, genCount, completeCount]
  | succ fuel ih =>
    intro generation st
    by_cases h : generation < maxGen
    · simp only [gaLoopF, if_pos h]
      have hic := innerChunkF_counts esg thr pops
        (min (generation + chunk) maxGen - generation) generation st
      rcases hr : (innerChunk esg thr pops generation
          (min (generation + chunk) maxGen) st).2 with - | ⟨st', brk⟩
      · refine ⟨?_, ?_, ?_⟩
        · have h1 := hic.1
          simp only [innerChunk] at h1 ⊢
          omega
        · simpa [innerChunk] using hic.2
        · intro hok
          simp at hok
      · have hrec := ih (min (generation + chunk) maxGen) st'
        refine ⟨?_, ?_, ?_⟩
        · have h1 := hic.1
          have h2 := hrec.1
          simp only [innerChunk] at h1 ⊢
          simp only [genCount, List.filter_append, List.length_append] at h2 ⊢
          simp only [genCount] at h1 h2
          omega
        · have h2 := hrec.2.1
          have h0 := hic.2
          simp only [innerChunk] at h0 ⊢
          simp only [completeCount, List.filter_append, List.length_append]
            at h2 ⊢
          simp only [completeCount] at h0 h2
          omega
        · intro hok
          have hok' : (gaLoopF chunk maxGen esg thr pops fuel
              (min (generation + chunk) maxGen) st').2 = true := hok
          have hlast := hrec.2.2 hok'
          have hne : (gaLoopF chunk maxGen esg thr pops fuel
              (min (generation + chunk) maxGen) st').1 ≠ [] := by
            intro hnil
            have := hrec.2.1
            rw [hnil, hok'] at this
            simp [completeCount] at this
          show ((innerChunk esg thr pops generation
              (min (generation + chunk) maxGen) st).1 ++
            (gaLoopF chunk maxGen esg thr pops fuel
              (min (generation + chunk) maxGen) st').1).getLast? =
            some Event.complete
          rw [List.getLast?_append_of_ne_nil _ hne]
          exact hlast
    · simp [gaLoopF, h, genCount, completeCount]

/-- **C7 (amended).** For every configuration and every run trace produced by
the scheduler, `onGeneration` fires at most `maxGenerations + 1` times
(generation 0 plus at most one call per subsequent generation; early stopping
and mid-run faults can only reduce this count), and whenever the run
terminates normally, `onComplete` fires exactly once, after the final
`onGeneration` call.  (As stated the claim also asserted exactly one
`onComplete` for configurations such as `populationSize = 0`, where the run
instead faults before any callback — see the counterexample.) -/
theorem c7_termination_bound (tasks : List Task) (pop0 : List Individual)
    (pops : Nat → List Individual) (maxGen : Nat) :
    genCount (runGA tasks pop0 pops maxGen).1 ≤ maxGen + 1 ∧
    ((runGA tasks pop0 pops maxGen).2 = true →
      completeCount (runGA tasks pop0 pops maxGen).1 = 1 ∧
      (runGA tasks pop0 pops maxGen).1.getLast? = some Event.complete) := by
  rcases hfb : findBest pop0 with - | ib
  · simp [runGA, hfb, genCount, completeCount]
  · have hc := gaLoopF_counts (chunkSize tasks) maxGen (earlyStopGens tasks)
      (1 / 1000) pops maxGen 0 ⟨ib.fitness, 0, ib⟩
    constructor
    · have h1 := hc.1
      simp only [genCount, one_div] at h1
      simp [runGA, hfb, genCount, List.filter_cons]
      omega
    · intro hok
      have hok' : (gaLoopF (chunkSize tasks) maxGen (earlyStopGens tasks)
          (1 / 1000) pops maxGen 0 ⟨ib.fitness, 0, ib⟩).2 = true := by
        simpa [runGA, hfb] using hok
      have h2 := hc.2.1
      rw [hok', if_pos rfl] at h2
      have hne : (gaLoopF (chunkSize tasks) maxGen (earlyStopGens tasks)
          (1 / 1000) pops maxGen 0 ⟨ib.fitness, 0, ib⟩).1 ≠ [] := by
        intro hnil
        rw [hnil] at h2
        simp [completeCount] at h2
      constructor
      · simp only [runGA, hfb, completeCount, List.filter_cons]
        simpa [completeCount] using h2
      · have h3 := hc.2.2 hok'
        simp only [runGA, hfb]
        rw [← List.singleton_append, List.getLast?_append_of_ne_nil _ hne]
        exact h3

/-- Closed witness for the amended C7: a one-individual population with
generation bound 0 reports generation 0 once and completes. -/
theorem c7_termination_bound_witness :
    genCount (runGA [] (emptyTasksPop 1) (fun _ => emptyTasksPop 1) 0).1 ≤
      0 + 1 ∧
    completeCount (runGA [] (emptyTasksPop 1) (fun _ => emptyTasksPop 1) 0).1
      = 1 ∧
    (runGA [] (emptyTasksPop 1) (fun _ => emptyTasksPop 1) 0).1.getLast? =
      some Event.complete := by
  have h := c7_termination_bound [] (emptyTasksPop 1)
    (fun _ => emptyTasksPop 1) 0
  have hok : (runGA [] (emptyTasksPop 1) (fun _ => emptyTasksPop 1) 0).2 =
      true := by decide
  exact ⟨h.1, (h.2 hok).1, (h.2 hok).2⟩

/-- **C7 (counterexample to the claim as stated).** The claim quantifies over
every configuration with `maxGenerations >= 0` and every task list, and
asserts `onComplete` is invoked exactly once.  With `populationSize = 0` the
population is empty, `findBestIndividual` reduces over an empty array to
`null`, and `run()` throws a `TypeError` reading `initialBest.fitness` —
after initialization and evaluation, before any callback: `onComplete` is
invoked zero times. -/
theorem c7_counterexample :
    runGA [] [] (fun _ => []) 5 = ([], false) ∧
    completeCount (runGA [] [] (fun _ => []) 5).1 = 0 :=
  ⟨rfl, rfl⟩

/-- **C6.** The code performs no fail-fast validation, contradicting the
spec's error-handling design: with an empty task list every chromosome is
empty (`createRandomChromosome [] = []`), the evaluator yields makespan 0 and
idle distance 0, and the run proceeds through all generations and calls
`onComplete` normally (trace shown for populationSize 5, maxGenerations 3);
and with populationSize 0 the run does start population work and then faults
with a `TypeError` (no callback at all) instead of surfacing a validation
error before population work begins. -/
theorem c6_no_validation :
    createRandomChromosome ([] : List Task) = [] ∧
    calculateMetrics [] = ((0 : ℝ), (0 : ℝ)) ∧
    runGA [] (emptyTasksPop 5) (fun _ => emptyTasksPop 5) 3 =
      ([Event.gen 0 0, Event.gen 1 0, Event.gen 2 0, Event.gen 3 0,
        Event.complete], true) ∧
    runGA [] [] (fun _ => []) 3 = ([], false) := by
  refine ⟨rfl, rfl, ?_, rfl⟩
  norm_num [runGA, gaLoopF, innerChunk, innerChunkF, stepState, findBest,
    emptyTasksPop, chunkSize, earlyStopGens, List.replicate, List.foldl]

/-- **C5 (counterexample to the claim as stated).** The source computes the
elite count as `Math.max(1, Math.floor(0.1 * populationSize))` — floor, not
ceil.  With populationSize 11, the claim's `ceil(0.1 * 11) = 2` says the two
lowest-fitness individuals are copied into the next population, but the code
copies only `max(1, floor(1.1)) = 1`: for a draw in which every fill-loop
offspring comes from the crossover path, the second-best individual of a
distinct-fitness population does not occur in the new population at all. -/
theorem c5_counterexample :
    max 1 (Nat.ceil ((11 : Rat) / 10)) = 2 ∧
    eliteCount 11 = 1 ∧
    (⟨1, 2, 0, 0⟩ : IndividualR) ∈ elevenPop ∧
    (sortByFitness elevenPop).take 2 = [⟨0, 1, 0, 0⟩, ⟨1, 2, 0, 0⟩] ∧
    (⟨1, 2, 0, 0⟩ : IndividualR) ∉
      (createNewGeneration 11 elevenPop (fun _ => []) dummyChoices).1 := by
  refine ⟨?_, rfl, ?_, ?_, ?_⟩
  · have h2 : Nat.ceil ((11 : Rat) / 10) = 2 := by
      rw [Nat.ceil_eq_iff (by omega)]
      norm_num
    rw [h2]
    decide
  · decide
  · decide
  · decide

/-- **C5 (amended).** In every reproduction step, exactly the top
`max(1, floor(0.1 * populationSize))` individuals by ascending fitness are
pushed — as shallow copies, with their fitness, makespan and idle-distance
values unchanged — as the first entries of the next population before the
remainder is filled: at the reference level the new population's prefix of
that length equals the corresponding prefix of the population stably sorted
by ascending fitness, a sorted permutation of the old population.  The
chromosome field of an elite is only a shared array reference, and it is not
guaranteed unchanged: the final conjuncts exhibit a drawable fill (tournament
selects the best individual, the crossover roll fails, mutation fires) whose
in-place mutation rewrites the array the first elite references before the
reproduction step returns. -/
theorem c5_elitism_floor (populationSize : Nat) (pop : List IndividualR)
    (s : Store) (choices : List FillChoice)
    (hlen : pop.length = populationSize) (hpos : 0 < populationSize) :
    ((createNewGeneration populationSize pop s choices).1.take
        (eliteCount populationSize) =
      (sortByFitness pop).take (eliteCount populationSize) ∧
    List.Perm (sortByFitness pop) pop ∧
    List.Sorted fitLE (sortByFitness pop) ∧
    eliteCount populationSize = max 1 (populationSize / 10)) ∧
    ((createNewGeneration 2 aliasPop aliasStore aliasChoices).1.take
        (eliteCount 2) = [(⟨0, 1, 0, 0⟩ : IndividualR)] ∧
      (createNewGeneration 2 aliasPop aliasStore aliasChoices).2
          (⟨0, 1, 0, 0⟩ : IndividualR).chrom ≠
        aliasStore (⟨0, 1, 0, 0⟩ : IndividualR).chrom) := by
  constructor
  · refine ⟨?_, List.perm_insertionSort fitLE pop,
      List.sorted_insertionSort fitLE pop, rfl⟩
    have hsl : (sortByFitness pop).length = populationSize := by
      rw [sortByFitness, (List.perm_insertionSort fitLE pop).length_eq, hlen]
    have hklen : ((sortByFitness pop).take (eliteCount populationSize)).length =
        eliteCount populationSize := by
      rw [List.length_take, hsl]
      have hk : eliteCount populationSize ≤ populationSize := by
        simp only [eliteCount]
        omega
      omega
    simp only [createNewGeneration]
    exact List.take_left' hklen
  · constructor
    · decide
    · decide

/-- Closed witness for the amended C5: a three-individual population with a
crossover-path fill. -/
theorem c5_elitism_floor_witness :
    ((createNewGeneration 3
        [⟨0, 3, 0, 0⟩, ⟨1, 1, 0, 0⟩, ⟨2, 2, 0, 0⟩] (fun _ => [])
        [FillChoice.fresh ⟨9, 9, 0, 0⟩, FillChoice.fresh ⟨9, 9, 0, 0⟩]).1.take
          (eliteCount 3) =
      (sortByFitness [⟨0, 3, 0, 0⟩, ⟨1, 1, 0, 0⟩, ⟨2, 2, 0, 0⟩]).take
        (eliteCount 3) ∧
    List.Perm (sortByFitness [⟨0, 3, 0, 0⟩, ⟨1, 1, 0, 0⟩, ⟨2, 2, 0, 0⟩])
      [⟨0, 3, 0, 0⟩, ⟨1, 1, 0, 0⟩, ⟨2, 2, 0, 0⟩] ∧
    List.Sorted fitLE
      (sortByFitness [⟨0, 3, 0, 0⟩, ⟨1, 1, 0, 0⟩, ⟨2, 2, 0, 0⟩]) ∧
    eliteCount 3 = max 1 (3 / 10)) ∧
    ((createNewGeneration 2 aliasPop aliasStore aliasChoices).1.take
        (eliteCount 2) = [(⟨0, 1, 0, 0⟩ : IndividualR)] ∧
      (createNewGeneration 2 aliasPop aliasStore aliasChoices).2
          (⟨0, 1, 0, 0⟩ : IndividualR).chrom ≠
        aliasStore (⟨0, 1, 0, 0⟩ : IndividualR).chrom) :=
  c5_elitism_floor 3 [⟨0, 3, 0, 0⟩, ⟨1, 1, 0, 0⟩, ⟨2, 2, 0, 0⟩] (fun _ => [])
    [FillChoice.fresh ⟨9, 9, 0, 0⟩, FillChoice.fresh ⟨9, 9, 0, 0⟩] rfl
    (by decide)

end AMRSpec
